import Mathlib

/-!
Shallow embedding of the conjunction-search engine of the `sattosat`
repository (`python/conjunctions.py`, `python/envelope_analysis.py`,
`python/investigation/scan_alaska.py`, `python/investigation/verify_conjunction.py`).

Modelling conventions:
* instants are rationals, measured in seconds of UTC since 0001-01-01 00:00
  (proleptic Gregorian, the scale of Python `datetime`); `timedelta`
  arithmetic becomes exact rational arithmetic;
* the external numeric collaborators (the SGP4 propagator `Satrec.sgp4`,
  `numpy.linalg.norm`'s square root, and the `math` library's
  `sin`/`cos`/`atan2`/`sqrt`/`radians`/`degrees`) are passed in as explicit
  function parameters, so every embedded definition is executable;
* a Python function that can raise (`propagate`, the parsers) returns an
  `Option`; the unbounded `while` loops are embedded with an explicit fuel
  argument together with a proof that the fuel chosen by the embedding is
  never exhausted under the preconditions of the claims.
-/

namespace Sattosat

/-- A 3-vector of rational coordinates (km or km/s), standing for the
`numpy` arrays used by the scripts. -/
structure Vec3 where
  x : ℚ
  y : ℚ
  z : ℚ
deriving DecidableEq

/-- The external real-number collaborators of the engine: `math.sin`,
`math.cos`, `math.sqrt` (also `numpy.linalg.norm`'s square root),
`math.atan2`, `math.radians` and `math.degrees`.  The engine only plumbs
their outputs around, so they are opaque parameters of the embedding. -/
structure RealOracle where
  sin : ℚ → ℚ
  cos : ℚ → ℚ
  sqrt : ℚ → ℚ
  atan2 : ℚ → ℚ → ℚ
  radians : ℚ → ℚ
  degrees : ℚ → ℚ

/-- Record `TLERecord` of `conjunctions.py`: parsed epoch (seconds, UTC), the
`Satrec` propagator handle (modelled as the propagation function
`instant ↦ (position, velocity)` that `propagate` wraps, returning `none`
where `Satrec.sgp4` reports a nonzero error code and `propagate` raises),
and the mean motion parsed from line 2. -/
structure TLERecord where
  epoch : ℚ
  prop : ℚ → Option (Vec3 × Vec3)
  mean_motion : ℚ

/-- The dict returned by `refine_minimum` in `conjunctions.py`:
refined instant, refined distance (km), relative velocity (km/s) and the
geodetic latitude/longitude of both satellites. -/
structure Event where
  time : ℚ
  distance : ℚ
  relative_velocity : ℚ
  sat_a_lat : ℚ
  sat_a_lon : ℚ
  sat_b_lat : ℚ
  sat_b_lon : ℚ
deriving DecidableEq

/-- Python function `pick_closest_tle` (conjunctions.py line 85): Python's
`min(tles, key=lambda t: abs((t.epoch - target_time).total_seconds()))`.
`min` scans left to right and replaces the current best only on a strict
decrease, so the first record attaining the minimum wins; on an empty list
Python raises `ValueError`, modelled by `none`. -/
def pick_closest_tle (tles : List TLERecord) (target_time : ℚ) : Option TLERecord :=
  match tles with
  | [] => none
  | h :: rest =>
      some (rest.foldl
        (fun best c => if |c.epoch - target_time| < |best.epoch - target_time| then c else best) h)

/-- Python function `distance_km` (conjunctions.py line 99): `np.linalg.norm(pos1 - pos2)`,
the square root being the numeric collaborator `O.sqrt`. -/
def distance_km (O : RealOracle) (pos1 pos2 : Vec3) : ℚ :=
  O.sqrt ((pos1.x - pos2.x) ^ 2 + (pos1.y - pos2.y) ^ 2 + (pos1.z - pos2.z) ^ 2)

/-- One sampling step of the Separation Sampler: pick the nearest TLE for
each object at instant `t`, propagate both, and measure their separation.
`none` models a `ValueError` (SGP4 failure, or `min` on an empty catalog)
escaping to the surrounding `try` of the caller. -/
def sepAt (O : RealOracle) (tles_a tles_b : List TLERecord) (t : ℚ) : Option ℚ :=
  match pick_closest_tle tles_a t, pick_closest_tle tles_b t with
  | some ta, some tb =>
      match ta.prop t, tb.prop t with
      | some (pa, _), some (pb, _) => some (distance_km O pa pb)
      | _, _ => none
  | _, _ => none

/-! ### Calendar arithmetic (Python `datetime`) -/

/-- Days of the proleptic Gregorian calendar strictly before January 1 of
`year`, counted from 0001-01-01 (so `daysBeforeYear 1 = 0`); this is
`datetime.date(year, 1, 1).toordinal() - 1`. -/
def daysBeforeYear (year : ℕ) : ℕ :=
  365 * (year - 1) + (year - 1) / 4 - (year - 1) / 100 + (year - 1) / 400

/-- The timestamp (seconds since 0001-01-01 00:00 UTC) of
`datetime(year, 1, 1, tzinfo=timezone.utc)`. -/
def jan1Sec (year : ℕ) : ℚ :=
  86400 * (daysBeforeYear year : ℚ)

/-- Timestamp of `datetime(2000, 1, 1, 12, 0, 0, tzinfo=timezone.utc)`,
the J2000 reference instant used by `eci_to_geodetic`. -/
def j2000Sec : ℚ := jan1Sec 2000 + 43200

/-- Computable floor on `ℚ` (`q.num / q.den` with `Int` division), the
same value as Mathlib's `⌊q⌋` by `Rat.floor_def`. -/
def qfloor (q : ℚ) : ℤ := q.num / q.den

/-- Python's float modulo `x % 360` (floored modulo, result in `[0, 360)`
for the positive modulus used here). -/
def qmod360 (x : ℚ) : ℚ := x - 360 * (qfloor (x / 360) : ℚ)

/-! ### `eci_to_geodetic` (conjunctions.py lines 104-142) -/

/-- Constant `EARTH_RADIUS_KM = 6378.137`. -/
def earthRadius : ℚ := 6378137 / 1000

/-- Constant `EARTH_FLATTENING = 1/298.257223563`. -/
def earthFlattening : ℚ := 1 / (298257223563 / 10 ^ 9)

/-- Derived constant `e2 = 2 * EARTH_FLATTENING - EARTH_FLATTENING**2`. -/
def geoE2 : ℚ := 2 * earthFlattening - earthFlattening ^ 2

/-- Greenwich Mean Sidereal Time in degrees at timestamp `dt`, the IAU-76
polynomial of `eci_to_geodetic` (lines 112-115), already reduced `% 360`. -/
def gmstDeg (dt : ℚ) : ℚ :=
  let jd := (dt - j2000Sec) / 86400 + 2451545
  let t := (jd - 2451545) / 36525
  qmod360 (28046061837 / 10 ^ 8 + 36098564736629 / 10 ^ 11 * (jd - 2451545)
    + 387933 / 10 ^ 9 * t ^ 2)

/-- Earth-fixed X component of `pos` at timestamp `dt` (line 119). -/
def ecefX (O : RealOracle) (pos : Vec3) (dt : ℚ) : ℚ :=
  pos.x * O.cos (O.radians (gmstDeg dt)) + pos.y * O.sin (O.radians (gmstDeg dt))

/-- Earth-fixed Y component of `pos` at timestamp `dt` (line 120). -/
def ecefY (O : RealOracle) (pos : Vec3) (dt : ℚ) : ℚ :=
  -pos.x * O.sin (O.radians (gmstDeg dt)) + pos.y * O.cos (O.radians (gmstDeg dt))

/-- Quantity `p = math.sqrt(x_ecef**2 + y_ecef**2)` (line 127). -/
def geoP (O : RealOracle) (pos : Vec3) (dt : ℚ) : ℚ :=
  O.sqrt (ecefX O pos dt ^ 2 + ecefY O pos dt ^ 2)

/-- Initial spherical-approximation latitude
`atan2(z_ecef, p * (1 - e2))` (line 129). -/
def geoLat0 (O : RealOracle) (z p : ℚ) : ℚ :=
  O.atan2 z (p * (1 - geoE2))

/-- One step of the latitude fixed-point iteration (lines 131-134). -/
def geoLatStep (O : RealOracle) (z p : ℚ) (lat : ℚ) : ℚ :=
  O.atan2 (z + geoE2 * (earthRadius / O.sqrt (1 - geoE2 * O.sin lat ^ 2)) * O.sin lat) p

/-- Python function `eci_to_geodetic` (conjunctions.py lines 104-142): GMST rotation to
ECEF, longitude by `atan2`, latitude by the `for _ in range(5)` fixed-point
iteration, altitude with the polar-singularity guard of line 140. -/
def eci_to_geodetic (O : RealOracle) (pos : Vec3) (dt : ℚ) : ℚ × ℚ × ℚ :=
  let x_ecef := ecefX O pos dt
  let y_ecef := ecefY O pos dt
  let z_ecef := pos.z
  let lon := O.degrees (O.atan2 y_ecef x_ecef)
  let p := O.sqrt (x_ecef ^ 2 + y_ecef ^ 2)
  let lat := (List.range 5).foldl (fun l _ => geoLatStep O z_ecef p l) (geoLat0 O z_ecef p)
  let sin_lat := O.sin lat
  let cos_lat := O.cos lat
  let n := earthRadius / O.sqrt (1 - geoE2 * sin_lat ^ 2)
  let alt := if 1 / 10 ^ 10 < |cos_lat| then p / cos_lat - n else |z_ecef| - n * (1 - geoE2)
  (O.degrees lat, lon, alt)

/-! ### `refine_minimum` (conjunctions.py lines 145-203) -/

/-- Result of the ternary-search `while` loop: the final bracket, an abort
on propagation failure (`return None`), or fuel exhaustion (which the
embedding proves unreachable for a positive precision). -/
inductive LoopResult where
  | timeout : LoopResult
  | fail : LoopResult
  | bracket (s e : ℚ) : LoopResult
deriving DecidableEq

/-- Width bound on the bracket of a `LoopResult` (trivial otherwise). -/
def LoopResult.widthLe (p : ℚ) : LoopResult → Prop
  | .bracket a b => b - a ≤ p
  | _ => True

/-- The `while (end - start) > precision` ternary-search loop of
`refine_minimum` (lines 155-178) over an abstract separation evaluation
`spf`: evaluate the two interior third-points; if the first fails (or, it
succeeding, the second fails) the whole refinement aborts; otherwise
`if d1 < d2` discard the right third (`end = t2`) else discard the left
third (`start = t1`). `fuel` bounds the number of iterations. -/
def refineLoop (spf : ℚ → Option ℚ) (p : ℚ) : ℕ → ℚ → ℚ → LoopResult
  | 0, s, e => if p < e - s then .timeout else .bracket s e
  | fuel + 1, s, e =>
      if p < e - s then
        match spf (s + (e - s) / 3) with
        | none => .fail
        | some d1 =>
            match spf (e - (e - s) / 3) with
            | none => .fail
            | some d2 =>
                if d1 < d2 then refineLoop spf p fuel s (e - (e - s) / 3)
                else refineLoop spf p fuel (s + (e - s) / 3) e
      else .bracket s e

/-- The instants at which `refine_minimum` evaluates the separation, in
execution order: the interior third points of each iteration (the second
only when the first succeeded), then the final bracket midpoint. -/
def refineEvalPoints (spf : ℚ → Option ℚ) (p : ℚ) : ℕ → ℚ → ℚ → List ℚ
  | 0, s, e => if p < e - s then [] else [s + (e - s) / 2]
  | fuel + 1, s, e =>
      if p < e - s then
        match spf (s + (e - s) / 3) with
        | none => [s + (e - s) / 3]
        | some d1 =>
            match spf (e - (e - s) / 3) with
            | none => [s + (e - s) / 3, e - (e - s) / 3]
            | some d2 =>
                (s + (e - s) / 3) :: (e - (e - s) / 3) ::
                  (if d1 < d2 then refineEvalPoints spf p fuel s (e - (e - s) / 3)
                   else refineEvalPoints spf p fuel (s + (e - s) / 3) e)
      else [s + (e - s) / 2]

/-- Iteration budget for `refineLoop`: each pass multiplies the bracket
width by `2/3`, and `2 * (w.num.toNat * p.den + 1)` passes provably
suffice to push any width `w` below any positive precision `p` (see the
no-timeout lemma); `0` for a non-positive precision, where the Python loop
would not terminate. -/
def fuelFor (w p : ℚ) : ℕ :=
  if p ≤ 0 then 0 else 2 * (w.num.toNat * p.den + 1)

/-- The post-loop block of `refine_minimum` (lines 180-203): propagate both
objects at the final midpoint and assemble the result dict; a propagation
failure yields `None`. -/
def finalEval (O : RealOracle) (tles_a tles_b : List TLERecord) (mid : ℚ) : Option Event :=
  match pick_closest_tle tles_a mid, pick_closest_tle tles_b mid with
  | some ta, some tb =>
      match ta.prop mid, tb.prop mid with
      | some (pos_a, vel_a), some (pos_b, vel_b) =>
          let dist := distance_km O pos_a pos_b
          let rel_vel :=
            O.sqrt ((vel_b.x - vel_a.x) ^ 2 + (vel_b.y - vel_a.y) ^ 2 + (vel_b.z - vel_a.z) ^ 2)
          let ga := eci_to_geodetic O pos_a mid
          let gb := eci_to_geodetic O pos_b mid
          some { time := mid, distance := dist, relative_velocity := rel_vel,
                 sat_a_lat := ga.1, sat_a_lon := ga.2.1,
                 sat_b_lat := gb.1, sat_b_lon := gb.2.1 }
      | _, _ => none
  | _, _ => none

/-- Glue between the loop and the post-loop block of `refine_minimum`:
`mid = start + (end - start) / 2` on the final bracket (line 181), `None`
when the loop aborted. -/
def refineAssemble (g : ℚ → Option Event) : LoopResult → Option Event
  | .bracket a b => g (a + (b - a) / 2)
  | _ => none

/-- Python function `refine_minimum` (conjunctions.py lines 145-203): run the ternary
search from bracket `[s, e]` down to `precision_ms` milliseconds, then
evaluate at the midpoint of the final bracket. -/
def refine_minimum (O : RealOracle) (tles_a tles_b : List TLERecord)
    (s e : ℚ) (precision_ms : ℕ) : Option Event :=
  let p := (precision_ms : ℚ) / 1000
  refineAssemble (finalEval O tles_a tles_b)
    (refineLoop (sepAt O tles_a tles_b) p (fuelFor (e - s) p) s e)

/-! ### `find_conjunctions` (conjunctions.py lines 206-253) -/

/-- Iteration budget for the sampling `while current <= end_time` loop:
an overestimate of the step count, `0` for a non-positive step (where the
Python loop would not terminate). -/
def stepsFuel (w step : ℚ) : ℕ :=
  if step ≤ 0 then 0 else w.num.toNat * step.den + 1

/-- The sampling loop of `find_conjunctions` (lines 221-251): sample the
separation at `current`; on a propagation `ValueError` skip the instant,
leaving the detector state unchanged; otherwise run the rising/falling
detector, refining the bracket `[prev_time - step, current]` whenever a
rising sample follows a decreasing phase, and keeping the refined event
only when its distance is below `threshold_km`. -/
def fcLoop (O : RealOracle) (tles_a tles_b : List TLERecord) (end_time step threshold_km : ℚ) :
    ℕ → ℚ → Option (ℚ × ℚ) → Bool → List Event → List Event
  | 0, _, _, _, acc => acc
  | fuel + 1, current, prev, decreasing, acc =>
      if current ≤ end_time then
        match sepAt O tles_a tles_b current with
        | none =>
            fcLoop O tles_a tles_b end_time step threshold_km fuel
              (current + step) prev decreasing acc
        | some dist =>
            match prev with
            | none =>
                fcLoop O tles_a tles_b end_time step threshold_km fuel
                  (current + step) (some (current, dist)) decreasing acc
            | some (prev_time, prev_distance) =>
                if dist < prev_distance then
                  fcLoop O tles_a tles_b end_time step threshold_km fuel
                    (current + step) (some (current, dist)) true acc
                else if decreasing = true ∧ prev_distance < dist then
                  let acc2 :=
                    match refine_minimum O tles_a tles_b (prev_time - step) current 100 with
                    | some ev => if ev.distance < threshold_km then acc ++ [ev] else acc
                    | none => acc
                  fcLoop O tles_a tles_b end_time step threshold_km fuel
                    (current + step) (some (current, dist)) false acc2
                else
                  fcLoop O tles_a tles_b end_time step threshold_km fuel
                    (current + step) (some (current, dist)) decreasing acc
      else acc

/-- Python function `find_conjunctions` (conjunctions.py lines 206-253): sample, detect and
refine, then `sorted(conjunctions, key=lambda c: c['distance'])`. -/
def find_conjunctions (O : RealOracle) (tles_a tles_b : List TLERecord)
    (start_time end_time step_seconds threshold_km : ℚ) : List Event :=
  (fcLoop O tles_a tles_b end_time step_seconds threshold_km
      (stepsFuel (end_time - start_time) step_seconds) start_time none false []).mergeSort
    (fun a b => a.distance ≤ b.distance)

/-! ### The Local-Minimum Detector in isolation -/

/-- The pure rising/falling detector skeleton of `find_conjunctions`
(lines 230-243), run over a list of already-sampled distances: the head of
`rest` has index `i` in the full list, `prev_distance` is the sample at
`i - 1`; a strict decrease sets the `decreasing` flag, a strict rise while
it is set declares a minimum at the previous index and clears it, and equal
consecutive distances change nothing.  Returns the declared indices. -/
def detectLoop : List ℚ → ℕ → ℚ → Bool → List ℕ
  | [], _, _, _ => []
  | d :: rest, i, prev_distance, decreasing =>
      if d < prev_distance then detectLoop rest (i + 1) d true
      else if decreasing = true ∧ prev_distance < d then
        (i - 1) :: detectLoop rest (i + 1) d false
      else detectLoop rest (i + 1) d decreasing

/-- Indices at which the Local-Minimum Detector declares a minimum over a
sampled distance sequence (no action is possible before the second
sample). -/
def detectMinima (ds : List ℚ) : List ℕ :=
  match ds with
  | [] => []
  | d :: rest => detectLoop rest 1 d false

/-- The index set kept by `find_local_minima`
(envelope_analysis.py lines 175-188): interior indices whose distance is
strictly below both neighbours. -/
def localMinIndices (ds : List ℚ) : List ℕ :=
  (List.range' 1 (ds.length - 2)).filter
    (fun i => decide (ds.getD i 0 < ds.getD (i - 1) 0)
      && decide (ds.getD i 0 < ds.getD (i + 1) 0))

/-- Python function `find_local_minima` (envelope_analysis.py lines 175-188): the times and
distances at the kept indices, in index order. -/
def find_local_minima (ts ds : List ℚ) : List ℚ × List ℚ :=
  ((localMinIndices ds).map (fun i => ts.getD i 0),
   (localMinIndices ds).map (fun i => ds.getD i 0))

/-! ### `group_into_passes` (investigation/scan_alaska.py lines 32-45) -/

/-- A sample row of `scan_alaska.py`: the fields of the dict that
`group_into_passes` reads (`time`) plus the distance used for the pass
summary. -/
structure Sample where
  time : ℚ
  distance : ℚ
deriving DecidableEq

/-- Body of `group_into_passes`: `cur` is `current_pass` (nonempty),
`prev` is `samples[i-1]`; a gap of more than 1800 s closes the current
pass and starts a new one at the present sample. -/
def gipLoop (cur : List Sample) (prev : Sample) : List Sample → List (List Sample)
  | [] => [cur]
  | s :: rest =>
      if 1800 < s.time - prev.time then cur :: gipLoop [s] s rest
      else gipLoop (cur ++ [s]) s rest

/-- Python function `group_into_passes` (scan_alaska.py lines 32-45). -/
def group_into_passes : List Sample → List (List Sample)
  | [] => []
  | s :: rest => gipLoop [s] s rest

/-! ### `find_envelope_minima` (envelope_analysis.py lines 191-238) -/

/-- Python `min` over a list of rationals (`0` for the empty list, on
which Python would raise; all uses are on nonempty windows). -/
def windowMin : List ℚ → ℚ
  | [] => 0
  | d :: rest => rest.foldl min d

/-- The `is_local_min` double-check of `find_envelope_minima`
(lines 220-224): no strictly lower distance at any other index `j` of
`range(max(0, i - hw), min(len, i + hw + 1))`. -/
def femLocalCheck (ds : List ℚ) (hw i : ℕ) : Bool :=
  (List.range' (max 0 (i - hw)) (min ds.length (i + hw + 1) - max 0 (i - hw))).all
    (fun j => j == i || !(decide (ds.getD j 0 < ds.getD i 0)))

/-- One candidate index of the `find_envelope_minima` scan
(lines 212-230); the accumulators hold the accepted times and distances in
reverse order, so the head of the first component is
`envelope_times[-1]`. -/
def femStep (ts ds : List ℚ) (hw : ℕ) (st : List ℚ × List ℚ) (i : ℕ) : List ℚ × List ℚ :=
  let window := (ds.drop (i - hw)).take (i + hw + 1 - (i - hw))
  if ds.getD i 0 = windowMin window then
    if femLocalCheck ds hw i then
      match st.1.head? with
      | none => (ts.getD i 0 :: st.1, ds.getD i 0 :: st.2)
      | some lastT =>
          if 3600 < ts.getD i 0 - lastT then (ts.getD i 0 :: st.1, ds.getD i 0 :: st.2)
          else st
    else st
  else st

/-- Python function `find_envelope_minima` (envelope_analysis.py lines 191-238): returns
`(envelope_times, envelope_distances, envelope_periods_in_hours)`. -/
def find_envelope_minima (ts ds : List ℚ) (window_size : ℕ) : List ℚ × List ℚ × List ℚ :=
  if ts.length < 3 then ([], [], [])
  else
    let hw := max 2 (window_size / 2)
    let st := (List.range' hw (ds.length - 2 * hw)).foldl (femStep ts ds hw) ([], [])
    let etimes := st.1.reverse
    let edists := st.2.reverse
    (etimes, edists, etimes.zipWith (fun a b => (b - a) / 3600) etimes.tail)

/-- Acceptance step written from the specification's words: index `i` is
accepted exactly when it has at least `hw` neighbours on both sides,
`distance[i]` equals the minimum of the symmetric window
`[i - hw, i + hw]`, no strictly lower value exists in that window, and the
candidate is more than 3600 s after the previously accepted envelope
minimum. -/
def envSpecStep (ts ds : List ℚ) (hw : ℕ) (st : List ℚ × List ℚ) (i : ℕ) : List ℚ × List ℚ :=
  if hw ≤ i ∧ i + hw < ds.length
      ∧ ds.getD i 0 = windowMin ((ds.drop (i - hw)).take (2 * hw + 1))
      ∧ (∀ j < i + hw + 1, i - hw ≤ j → j ≠ i → ¬(ds.getD j 0 < ds.getD i 0))
      ∧ (∀ lastT ∈ st.1.head?, 3600 < ts.getD i 0 - lastT)
  then (ts.getD i 0 :: st.1, ds.getD i 0 :: st.2) else st

/-- The specification's envelope-minimum extraction: scan every index of
the minima sequence through `envSpecStep`. -/
def envSpec (ts ds : List ℚ) (window_size : ℕ) : List ℚ × List ℚ :=
  let hw := max 2 (window_size / 2)
  let st := (List.range ds.length).foldl (envSpecStep ts ds hw) ([], [])
  (st.1.reverse, st.2.reverse)

/-! ### TLE parsing (`TLERecord.from_lines`, conjunctions.py lines 54-64) -/

/-- Python `str.strip` on a character list. -/
def stripChars (l : List Char) : List Char :=
  ((l.dropWhile Char.isWhitespace).reverse.dropWhile Char.isWhitespace).reverse

/-- Value of a string of decimal digits. -/
def parseDigits (l : List Char) : ℕ :=
  l.foldl (fun acc c => 10 * acc + (c.toNat - 48)) 0

/-- Python `int(s)` restricted to the unsigned decimal fields of a TLE
(`none` models the `ValueError` of a malformed field). -/
def parseNat (l : List Char) : Option ℕ :=
  if l ≠ [] ∧ l.all Char.isDigit then some (parseDigits l) else none

/-- Digit decomposition of an unsigned fixed-point literal: integer-part
value, fraction-part value and fraction length, after stripping
surrounding whitespace; `none` on a malformed field. -/
def decParts (l : List Char) : Option (ℕ × ℕ × ℕ) :=
  let s := stripChars l
  let ip := s.takeWhile (fun c => !(c == '.'))
  match s.drop ip.length with
  | [] => if ip ≠ [] ∧ ip.all Char.isDigit then some (parseDigits ip, 0, 0) else none
  | _ :: fp =>
      if ip ≠ [] ∧ ip.all Char.isDigit ∧ fp.all Char.isDigit then
        some (parseDigits ip, parseDigits fp, fp.length)
      else none

/-- Python `float(s)` restricted to the unsigned fixed-point fields of a
TLE: optional surrounding whitespace, a nonempty integer part, an optional
point and fraction digits; exact rational value. -/
def parseDecimal (l : List Char) : Option ℚ :=
  (decParts l).map (fun pr => (pr.1 : ℚ) + (pr.2.1 : ℚ) / 10 ^ pr.2.2)

/-- Python classmethod `TLERecord.from_lines` (conjunctions.py lines 54-64): epoch from
columns 19-32 of line 1 (Python slice `line1[18:32]`, stripped): two-digit
year with the `< 57 ↦ 2000 + yy`, otherwise `1900 + yy` pivot, plus the
fractional day of year; the epoch instant is January 1 of that year plus
`day_of_year - 1` days.  Mean motion from columns 53-63 of line 2 (slice
`line2[52:63]`).  `twoline2rv` is the external SGP4 constructor giving the
propagator handle. -/
def TLERecord.from_lines (twoline2rv : String → String → ℚ → Option (Vec3 × Vec3))
    (line1 line2 : String) : Option TLERecord :=
  let epochStr := stripChars ((line1.toList.drop 18).take 14)
  match parseNat (epochStr.take 2) with
  | none => none
  | some yy =>
      let year := if yy < 57 then 2000 + yy else 1900 + yy
      match parseDecimal (epochStr.drop 2) with
      | none => none
      | some day_of_year =>
          match parseDecimal ((line2.toList.drop 52).take 11) with
          | none => none
          | some mm =>
              some { epoch := jan1Sec year + (day_of_year - 1) * 86400,
                     prop := twoline2rv line1 line2, mean_motion := mm }

/-! ### Concrete instances used by counterexamples and witnesses

The demo pair below drives `find_conjunctions` with a 1/10 s step over the
window `[0, 1/5]`.  Satellite A sits at the origin; satellite B sits on the
x-axis at `demoBx t` km, so every separation is `|demoBx t|` km.
`demoSqrt` returns the exact square root at every radicand the run
evaluates (all perfect squares), i.e. it agrees with `numpy`'s square root
wherever it is called. -/

/-- Square-root table for the demo run: exact on every radicand it is
applied to. -/
def demoSqrt (q : ℚ) : ℚ :=
  if q = 0 then 0 else if q = 1 then 1 else if q = 4 then 2
  else if q = 25 then 5 else if q = 36 then 6 else if q = 100 then 10
  else if q = 998001 then 999 else if q = 1000000 then 1000 else 0

/-- Numeric collaborators for the demo run: trigonometric functions pinned
to `0` (their values never feed back into distances), square root as
`demoSqrt`. -/
def demoOracle : RealOracle :=
  { sin := fun _ => 0, cos := fun _ => 0, sqrt := demoSqrt,
    atan2 := fun _ _ => 0, radians := fun _ => 0, degrees := fun _ => 0 }

/-- X-coordinate of demo satellite B over time: samples 10, 5, 6 at the
raw cadence (a detected local minimum at `t = 1/10`), dipping separations
at the first ternary iteration's interior points and a tall spike at the
instants of the second iteration, so that the refined midpoint lands on a
separation of 999 km. -/
def demoBx (t : ℚ) : ℚ :=
  if t = 0 then 10 else if t = 1/10 then 5 else if t = 1/5 then 6
  else if t = 1/15 then 1 else if t = 2/15 then 2
  else if t = 2/45 then 999 else if t = 4/45 then 1000 else 10000

/-- Demo satellite A: pinned to the origin. -/
def demoTleA : TLERecord := ⟨0, fun _ => some (⟨0, 0, 0⟩, ⟨0, 0, 0⟩), 15⟩

/-- Demo satellite B: on the x-axis at `demoBx t`. -/
def demoTleB : TLERecord := ⟨0, fun t => some (⟨demoBx t, 0, 0⟩, ⟨0, 0, 0⟩), 15⟩

/-- The event `refine_minimum` produces on the demo bracket `[0, 1/5]`. -/
def demoEvent : Event := ⟨2/45, 999, 0, 0, 0, 0, 0⟩

/-- Unfolding lemma for one fuelled iteration of the ternary-search loop. -/
theorem refineLoop_succ (spf : ℚ → Option ℚ) (p : ℚ) (fuel : ℕ) (s e : ℚ) :
    refineLoop spf p (fuel + 1) s e =
      (if p < e - s then
        match spf (s + (e - s) / 3) with
        | none => .fail
        | some d1 =>
            match spf (e - (e - s) / 3) with
            | none => .fail
            | some d2 =>
                if d1 < d2 then refineLoop spf p fuel s (e - (e - s) / 3)
                else refineLoop spf p fuel (s + (e - s) / 3) e
      else .bracket s e) := rfl

/-- Unfolding lemma for one fuelled iteration of the sampling loop. -/
theorem fcLoop_succ (O : RealOracle) (tles_a tles_b : List TLERecord)
    (end_time step threshold_km : ℚ) (fuel : ℕ) (current : ℚ)
    (prev : Option (ℚ × ℚ)) (decreasing : Bool) (acc : List Event) :
    fcLoop O tles_a tles_b end_time step threshold_km (fuel + 1) current prev decreasing acc =
      (if current ≤ end_time then
        match sepAt O tles_a tles_b current with
        | none =>
            fcLoop O tles_a tles_b end_time step threshold_km fuel
              (current + step) prev decreasing acc
        | some dist =>
            match prev with
            | none =>
                fcLoop O tles_a tles_b end_time step threshold_km fuel
                  (current + step) (some (current, dist)) decreasing acc
            | some (prev_time, prev_distance) =>
                if dist < prev_distance then
                  fcLoop O tles_a tles_b end_time step threshold_km fuel
                    (current + step) (some (current, dist)) true acc
                else if decreasing = true ∧ prev_distance < dist then
                  fcLoop O tles_a tles_b end_time step threshold_km fuel
                    (current + step) (some (current, dist)) false
                    (match refine_minimum O tles_a tles_b (prev_time - step) current 100 with
                     | some ev => if ev.distance < threshold_km then acc ++ [ev] else acc
                     | none => acc)
                else
                  fcLoop O tles_a tles_b end_time step threshold_km fuel
                    (current + step) (some (current, dist)) decreasing acc
      else acc) := rfl

/-- Separations of the demo pair reduce to the square root of `demoBx t`
squared. -/
theorem demoSep_eval (t : ℚ) :
    sepAt demoOracle [demoTleA] [demoTleB] t = some (demoSqrt (demoBx t ^ 2)) := by
  simp [sepAt, pick_closest_tle, demoTleA, demoTleB, distance_km, demoOracle]

/-- The ternary-search loop on the demo bracket stops at `[0, 4/45]`. -/
theorem demoLoop_eval :
    refineLoop (sepAt demoOracle [demoTleA] [demoTleB]) (((100 : ℕ) : ℚ) / 1000) 22 0 (1/5)
      = LoopResult.bracket 0 (4/45) := by
  rw [show (22 : ℕ) = 21 + 1 from rfl, refineLoop_succ]
  norm_num [demoSep_eval, demoBx, demoSqrt]
  rw [show (21 : ℕ) = 20 + 1 from rfl, refineLoop_succ]
  norm_num [demoSep_eval, demoBx, demoSqrt]
  rw [show (20 : ℕ) = 19 + 1 from rfl, refineLoop_succ]
  norm_num [demoSep_eval, demoBx, demoSqrt]

/-- The final midpoint evaluation of the demo refinement. -/
theorem demoFinal_eval :
    finalEval demoOracle [demoTleA] [demoTleB] (2/45) = some demoEvent := by
  norm_num [finalEval, pick_closest_tle, demoTleA, demoTleB, demoBx, distance_km,
    demoOracle, demoSqrt, eci_to_geodetic, demoEvent]

/-- `refine_minimum` on the demo bracket returns the event at `t = 2/45`
with distance 999 km. -/
theorem demoRefine_eval :
    refine_minimum demoOracle [demoTleA] [demoTleB] 0 (1/5) 100 = some demoEvent := by
  have hfuel : fuelFor ((1 : ℚ)/5 - 0) (((100 : ℕ) : ℚ) / 1000) = 22 := by
    norm_num [fuelFor]
  rw [refine_minimum, hfuel, demoLoop_eval]
  norm_num [refineAssemble, demoFinal_eval]

/-- The demo run of `find_conjunctions`: raw samples 10, 5, 6 trigger one
bracket, whose refinement (distance 999 < threshold 1000) is the single
reported conjunction. -/
theorem demoFc_eval :
    find_conjunctions demoOracle [demoTleA] [demoTleB] 0 (1/5) (1/10) 1000 = [demoEvent] := by
  have hsteps : stepsFuel ((1 : ℚ)/5 - 0) (1/10) = 11 := by norm_num [stepsFuel]
  rw [find_conjunctions, hsteps]
  rw [show (11 : ℕ) = 10 + 1 from rfl, fcLoop_succ]
  norm_num [demoSep_eval, demoBx, demoSqrt]
  rw [show (10 : ℕ) = 9 + 1 from rfl, fcLoop_succ]
  norm_num [demoSep_eval, demoBx, demoSqrt]
  rw [show (9 : ℕ) = 8 + 1 from rfl, fcLoop_succ]
  norm_num [demoSep_eval, demoBx, demoSqrt, demoRefine_eval, demoEvent]
  rw [show (8 : ℕ) = 7 + 1 from rfl, fcLoop_succ]
  norm_num [List.mergeSort]

/-! ### Claim C1 -/

/-- Containment of every intermediate ternary-search bracket in the
original one. -/
theorem refineLoop_bracket_sub (spf : ℚ → Option ℚ) (p : ℚ) :
    ∀ (fuel : ℕ) (s e a b : ℚ), s ≤ e → refineLoop spf p fuel s e = .bracket a b →
      s ≤ a ∧ a ≤ b ∧ b ≤ e := by
  intro fuel
  induction fuel with
  | zero =>
      intro s e a b hse h
      rw [refineLoop] at h
      split at h
      · exact absurd h (by simp)
      · cases h
        exact ⟨le_refl _, hse, le_refl _⟩
  | succ n ih =>
      intro s e a b hse h
      rw [refineLoop_succ] at h
      split at h
      · split at h
        · simp at h
        · split at h
          · simp at h
          · split at h
            · have hrec := ih s (e - (e - s) / 3) a b (by linarith) h
              exact ⟨hrec.1, hrec.2.1, by linarith [hrec.2.2]⟩
            · have hrec := ih (s + (e - s) / 3) e a b (by linarith) h
              exact ⟨by linarith [hrec.1], hrec.2.1, hrec.2.2⟩
      · cases h
        exact ⟨le_refl _, hse, le_refl _⟩

/-- The final block of `refine_minimum` reports the instant it was given
and the separation there. -/
theorem finalEval_time_distance (O : RealOracle) (tles_a tles_b : List TLERecord)
    (t : ℚ) (ev : Event) (h : finalEval O tles_a tles_b t = some ev) :
    ev.time = t ∧ sepAt O tles_a tles_b t = some ev.distance := by
  rw [finalEval] at h
  cases hA : pick_closest_tle tles_a t with
  | none => simp [hA] at h
  | some ta =>
      cases hB : pick_closest_tle tles_b t with
      | none => simp [hA, hB] at h
      | some tb =>
          simp only [hA, hB] at h
          cases hpa : ta.prop t with
          | none => simp [hpa] at h
          | some va =>
              cases hpb : tb.prop t with
              | none => simp [hpa, hpb] at h
              | some vb =>
                  obtain ⟨pa, vela⟩ := va
                  obtain ⟨pb, velb⟩ := vb
                  simp only [hpa, hpb] at h
                  rw [Option.some_inj] at h
                  subst h
                  exact ⟨rfl, by simp [sepAt, hA, hB, hpa, hpb]⟩

/-- Claim C1, corrected: a successfully refined `ConjunctionEvent` is
evaluated at an instant inside the detected bracket, and its distance is
the separation sampled at that instant — but (see the counterexample) it
need not lie below the separations at the bracketing raw samples. -/
theorem c1_refined_event_stays_in_bracket (O : RealOracle)
    (tles_a tles_b : List TLERecord) (s e : ℚ) (precision_ms : ℕ) (ev : Event)
    (hse : s ≤ e) (h : refine_minimum O tles_a tles_b s e precision_ms = some ev) :
    s ≤ ev.time ∧ ev.time ≤ e ∧ sepAt O tles_a tles_b ev.time = some ev.distance := by
  rw [refine_minimum] at h
  cases hL : refineLoop (sepAt O tles_a tles_b) ((precision_ms : ℚ) / 1000)
      (fuelFor (e - s) ((precision_ms : ℚ) / 1000)) s e with
  | timeout => rw [hL] at h; exact absurd h (by simp [refineAssemble])
  | fail => rw [hL] at h; exact absurd h (by simp [refineAssemble])
  | bracket a b =>
      rw [hL] at h
      rw [refineAssemble] at h
      have hsub := refineLoop_bracket_sub (sepAt O tles_a tles_b) ((precision_ms : ℚ) / 1000)
        (fuelFor (e - s) ((precision_ms : ℚ) / 1000)) s e a b hse hL
      have hfe := finalEval_time_distance O tles_a tles_b (a + (b - a) / 2) ev h
      refine ⟨?_, ?_, ?_⟩
      · rw [hfe.1]; linarith [hsub.1, hsub.2.1]
      · rw [hfe.1]; linarith [hsub.2.1, hsub.2.2]
      · rw [hfe.1]; exact hfe.2

/-- Witness for C1 (corrected form): the demo refinement lands at
`t = 2/45` inside the bracket `[0, 1/5]`, at the sampled separation. -/
theorem c1_refined_event_stays_in_bracket_witness :
    (0 : ℚ) ≤ 1/5 ∧
      ((0 : ℚ) ≤ demoEvent.time ∧ demoEvent.time ≤ 1/5 ∧
        sepAt demoOracle [demoTleA] [demoTleB] demoEvent.time = some demoEvent.distance) :=
  ⟨by norm_num,
   c1_refined_event_stays_in_bracket demoOracle [demoTleA] [demoTleB] 0 (1/5) 100 demoEvent
     (by norm_num) demoRefine_eval⟩

/-- Counterexample to claim C1 as stated: on the demo pair the sampler
sees separations 10, 5, 6 at instants 0, 1/10, 1/5 (a detected bracket
around the minimum at 1/10), `refine_minimum` on the emitted bracket
`[1/10 - 1/10, 1/5]` returns distance 999, the run reports exactly that
event, and 999 exceeds both bracketing raw samples 10 and 6. -/
theorem c1_refiner_diverges_counterexample :
    sepAt demoOracle [demoTleA] [demoTleB] 0 = some 10 ∧
    sepAt demoOracle [demoTleA] [demoTleB] (1/10) = some 5 ∧
    sepAt demoOracle [demoTleA] [demoTleB] (1/5) = some 6 ∧
    (refine_minimum demoOracle [demoTleA] [demoTleB] (1/10 - 1/10) (1/5) 100).map Event.distance
      = some 999 ∧
    (find_conjunctions demoOracle [demoTleA] [demoTleB] 0 (1/5) (1/10) 1000).map Event.distance
      = [999] ∧
    ¬((999 : ℚ) ≤ 10) ∧ ¬((999 : ℚ) ≤ 6) := by
  refine ⟨?_, ?_, ?_, ?_, ?_, by norm_num, by norm_num⟩
  · rw [demoSep_eval]; norm_num [demoBx, demoSqrt]
  · rw [demoSep_eval]; norm_num [demoBx, demoSqrt]
  · rw [demoSep_eval]; norm_num [demoBx, demoSqrt]
  · rw [show (1 : ℚ)/10 - 1/10 = 0 by norm_num, demoRefine_eval]
    norm_num [demoEvent]
  · rw [demoFc_eval]
    norm_num [demoEvent]

/-! ### Claim C6 -/

/-- Bernoulli bound used for the fuel estimate. -/
theorem one_add_half_le_pow (n : ℕ) : 1 + (n : ℚ) / 2 ≤ (3 / 2) ^ n := by
  have h := one_add_mul_le_pow (a := (1 : ℚ) / 2) (by norm_num) n
  calc 1 + (n : ℚ) / 2 = 1 + (n : ℚ) * (1 / 2) := by ring
    _ ≤ (1 + 1 / 2) ^ n := h
    _ = (3 / 2) ^ n := by norm_num

/-- The fuel chosen by `fuelFor` bounds the initial width against the
geometric decay of the ternary search. -/
theorem fuelFor_spec (w p : ℚ) (hp : 0 < p) : w ≤ p * (3 / 2) ^ fuelFor w p := by
  rw [fuelFor, if_neg (not_le.mpr hp)]
  have hpow := one_add_half_le_pow (2 * (w.num.toNat * p.den + 1))
  have hmul : p * (1 + (2 * (w.num.toNat * p.den + 1) : ℕ) / 2) ≤
      p * (3 / 2) ^ (2 * (w.num.toNat * p.den + 1)) :=
    mul_le_mul_of_nonneg_left hpow hp.le
  have hcast : ((2 * (w.num.toNat * p.den + 1) : ℕ) : ℚ) / 2 =
      (w.num.toNat : ℚ) * (p.den : ℚ) + 1 := by
    push_cast
    ring
  rw [hcast] at hmul
  rcases le_or_lt w 0 with hw | hw
  · have hpos : 0 < p * (1 + ((w.num.toNat : ℚ) * (p.den : ℚ) + 1)) := by positivity
    linarith
  · have hnum : ((w.num.toNat : ℤ) : ℚ) = (w.num : ℚ) := by
      rw [Int.toNat_of_nonneg (Rat.num_nonneg.mpr hw.le)]
    have hnum2 : (w.num.toNat : ℚ) = (w.num : ℚ) := by exact_mod_cast hnum
    have hwle : w ≤ (w.num : ℚ) := by
      conv_lhs => rw [← Rat.num_div_den w]
      exact div_le_self (by exact_mod_cast Rat.num_nonneg.mpr hw.le)
        (by exact_mod_cast w.den_pos)
    have hden0 : ((p.den : ℚ)) ≠ 0 := by
      exact_mod_cast p.den_nz
    have hpden : (p.num : ℚ) = p * (p.den : ℚ) :=
      (div_eq_iff hden0).mp (Rat.num_div_den p)
    have hpnum1 : (1 : ℚ) ≤ (p.num : ℚ) := by
      exact_mod_cast Rat.num_pos.mpr hp
    have hwnum0 : (0 : ℚ) ≤ (w.num : ℚ) := by
      exact_mod_cast (Rat.num_pos.mpr hw).le
    calc w ≤ (w.num : ℚ) := hwle
      _ ≤ (w.num : ℚ) * (p.num : ℚ) := le_mul_of_one_le_right hwnum0 hpnum1
      _ = (w.num : ℚ) * (p * (p.den : ℚ)) := by rw [← hpden]
      _ ≤ p * (1 + ((w.num.toNat : ℚ) * (p.den : ℚ) + 1)) := by rw [hnum2]; nlinarith [hp]
      _ ≤ p * (3 / 2) ^ (2 * (w.num.toNat * p.den + 1)) := hmul

/-- With enough fuel for the geometric decay, the embedded loop never
reports fuel exhaustion: the Python `while` loop terminates. -/
theorem refineLoop_no_timeout (spf : ℚ → Option ℚ) (p : ℚ) :
    ∀ (fuel : ℕ) (s e : ℚ), e - s ≤ p * (3 / 2) ^ fuel →
      refineLoop spf p fuel s e ≠ .timeout := by
  intro fuel
  induction fuel with
  | zero =>
      intro s e hbound
      rw [refineLoop]
      rw [pow_zero, mul_one] at hbound
      rw [if_neg (not_lt.mpr hbound)]
      simp
  | succ n ih =>
      intro s e hbound
      rw [refineLoop_succ]
      split
      · rename_i hwide
        cases h1 : spf (s + (e - s) / 3) with
        | none => simp
        | some d1 =>
            cases h2 : spf (e - (e - s) / 3) with
            | none => simp [h1, h2]
            | some d2 =>
                have hdecay : p * (3 / 2) ^ (n + 1) = 3 / 2 * (p * (3 / 2) ^ n) := by
                  rw [pow_succ]; ring
                rw [hdecay] at hbound
                show (if d1 < d2 then refineLoop spf p n s (e - (e - s) / 3)
                  else refineLoop spf p n (s + (e - s) / 3) e) ≠ LoopResult.timeout
                split
                · exact ih s (e - (e - s) / 3) (by linarith)
                · exact ih (s + (e - s) / 3) e (by linarith)
      · simp

/-- When the loop does finish with a bracket, that bracket's width is at
most the precision: the exit condition of `while (end - start) >
precision`. -/
theorem refineLoop_exit_width (spf : ℚ → Option ℚ) (p : ℚ) :
    ∀ (fuel : ℕ) (s e a b : ℚ), refineLoop spf p fuel s e = .bracket a b → b - a ≤ p := by
  intro fuel
  induction fuel with
  | zero =>
      intro s e a b h
      rw [refineLoop] at h
      split at h
      · simp at h
      · rename_i hnarrow
        cases h
        exact not_lt.mp hnarrow
  | succ n ih =>
      intro s e a b h
      rw [refineLoop_succ] at h
      split at h
      · split at h
        · simp at h
        · split at h
          · simp at h
          · split at h
            · exact ih s (e - (e - s) / 3) a b h
            · exact ih (s + (e - s) / 3) e a b h
      · rename_i hnarrow
        cases h
        exact not_lt.mp hnarrow

/-- Claim C6: for `precision_ms ≥ 1` the ternary-search loop (a) compares
the two interior third-point distances and discards the right third when
`d1 < d2`, otherwise the left third, the surviving bracket having exactly
`2/3` of the previous width; (b) never exhausts the fuel the embedding
gives it (the Python `while` loop terminates); and (c) any bracket it
finishes with has width at most the precision. -/
theorem c6_ternary_search_terminates (spf : ℚ → Option ℚ) (precision_ms : ℕ)
    (s e d1 d2 : ℚ) (fuel : ℕ) (hp : 1 ≤ precision_ms)
    (hwide : (precision_ms : ℚ) / 1000 < e - s)
    (h1 : spf (s + (e - s) / 3) = some d1) (h2 : spf (e - (e - s) / 3) = some d2) :
    refineLoop spf ((precision_ms : ℚ) / 1000) (fuel + 1) s e =
      (if d1 < d2 then refineLoop spf ((precision_ms : ℚ) / 1000) fuel s (e - (e - s) / 3)
       else refineLoop spf ((precision_ms : ℚ) / 1000) fuel (s + (e - s) / 3) e) ∧
    (e - (e - s) / 3) - s = 2 / 3 * (e - s) ∧
    e - (s + (e - s) / 3) = 2 / 3 * (e - s) ∧
    refineLoop spf ((precision_ms : ℚ) / 1000)
      (fuelFor (e - s) ((precision_ms : ℚ) / 1000)) s e ≠ .timeout ∧
    LoopResult.widthLe ((precision_ms : ℚ) / 1000)
      (refineLoop spf ((precision_ms : ℚ) / 1000)
        (fuelFor (e - s) ((precision_ms : ℚ) / 1000)) s e) := by
  have hppos : (0 : ℚ) < (precision_ms : ℚ) / 1000 := by
    have hc : (1 : ℚ) ≤ (precision_ms : ℚ) := by exact_mod_cast hp
    linarith
  refine ⟨?_, by ring, by ring, ?_, ?_⟩
  · rw [refineLoop_succ, if_pos hwide, h1, h2]
  · exact refineLoop_no_timeout spf _ _ s e
      (fuelFor_spec (e - s) ((precision_ms : ℚ) / 1000) hppos)
  · cases hL : refineLoop spf ((precision_ms : ℚ) / 1000)
        (fuelFor (e - s) ((precision_ms : ℚ) / 1000)) s e with
    | timeout => exact trivial
    | fail => exact trivial
    | bracket a b =>
        rw [LoopResult.widthLe]
        exact refineLoop_exit_width spf ((precision_ms : ℚ) / 1000) _ s e a b hL

/-- Witness for C6 on the concrete bracket `[0, 1/5]` with a constant
separation of 3 km and the default 100 ms precision. -/
theorem c6_ternary_search_terminates_witness :
    refineLoop (fun _ => some 3) (((100 : ℕ) : ℚ) / 1000) (0 + 1) 0 (1/5) =
      (if (3 : ℚ) < 3 then
        refineLoop (fun _ => some 3) (((100 : ℕ) : ℚ) / 1000) 0 0 ((1:ℚ)/5 - ((1:ℚ)/5 - 0) / 3)
       else refineLoop (fun _ => some 3) (((100 : ℕ) : ℚ) / 1000) 0 (0 + ((1:ℚ)/5 - 0) / 3) (1/5)) ∧
    ((1:ℚ)/5 - ((1:ℚ)/5 - 0) / 3) - 0 = 2 / 3 * ((1:ℚ)/5 - 0) ∧
    (1:ℚ)/5 - (0 + ((1:ℚ)/5 - 0) / 3) = 2 / 3 * ((1:ℚ)/5 - 0) ∧
    refineLoop (fun _ => some 3) (((100 : ℕ) : ℚ) / 1000)
      (fuelFor ((1:ℚ)/5 - 0) (((100 : ℕ) : ℚ) / 1000)) 0 (1/5) ≠ .timeout ∧
    LoopResult.widthLe (((100 : ℕ) : ℚ) / 1000)
      (refineLoop (fun _ => some 3) (((100 : ℕ) : ℚ) / 1000)
        (fuelFor ((1:ℚ)/5 - 0) (((100 : ℕ) : ℚ) / 1000)) 0 (1/5)) :=
  c6_ternary_search_terminates (fun _ => some 3) 100 0 (1/5) 3 3 0
    (by norm_num) (by norm_num) rfl rfl

/-! ### Claim C5 -/

/-- Unfolding lemma for the evaluated-instants list at zero fuel. -/
theorem refineEvalPoints_zero (spf : ℚ → Option ℚ) (p s e : ℚ) :
    refineEvalPoints spf p 0 s e =
      (if p < e - s then [] else [s + (e - s) / 2]) := rfl

/-- Unfolding lemma for the evaluated-instants list at positive fuel. -/
theorem refineEvalPoints_succ (spf : ℚ → Option ℚ) (p : ℚ) (fuel : ℕ) (s e : ℚ) :
    refineEvalPoints spf p (fuel + 1) s e =
      (if p < e - s then
        match spf (s + (e - s) / 3) with
        | none => [s + (e - s) / 3]
        | some d1 =>
            match spf (e - (e - s) / 3) with
            | none => [s + (e - s) / 3, e - (e - s) / 3]
            | some d2 =>
                (s + (e - s) / 3) :: (e - (e - s) / 3) ::
                  (if d1 < d2 then refineEvalPoints spf p fuel s (e - (e - s) / 3)
                   else refineEvalPoints spf p fuel (s + (e - s) / 3) e)
      else [s + (e - s) / 2]) := rfl

/-- The post-loop block fails exactly when the separation sampling at the
same instant fails (the two run the same picks and propagations). -/
theorem finalEval_none_iff (O : RealOracle) (tles_a tles_b : List TLERecord) (t : ℚ) :
    finalEval O tles_a tles_b t = none ↔ sepAt O tles_a tles_b t = none := by
  rw [finalEval, sepAt]
  cases hA : pick_closest_tle tles_a t with
  | none => simp
  | some ta =>
      cases hB : pick_closest_tle tles_b t with
      | none => simp
      | some tb =>
          cases hpa : ta.prop t with
          | none => simp [hpa]
          | some va =>
              cases hpb : tb.prop t with
              | none =>
                  obtain ⟨pa, vela⟩ := va
                  simp [hpa, hpb]
              | some vb =>
                  obtain ⟨pa, vela⟩ := va
                  obtain ⟨pb, velb⟩ := vb
                  simp [hpa, hpb]

/-- Core of claim C5, by induction on the fuel: provided the loop does not
exhaust its fuel, the assembled refinement result is `none` exactly when
the separation evaluation fails at one of the evaluated instants. -/
theorem refineAssemble_none_iff (spf : ℚ → Option ℚ) (g : ℚ → Option Event) (p : ℚ)
    (hg : ∀ t, g t = none ↔ spf t = none) :
    ∀ (fuel : ℕ) (s e : ℚ), refineLoop spf p fuel s e ≠ .timeout →
      (refineAssemble g (refineLoop spf p fuel s e) = none ↔
        ∃ t ∈ refineEvalPoints spf p fuel s e, spf t = none) := by
  intro fuel
  induction fuel with
  | zero =>
      intro s e hnt
      rw [refineLoop] at hnt
      rw [refineLoop, refineEvalPoints_zero]
      by_cases hcond : p < e - s
      · rw [if_pos hcond] at hnt
        exact absurd rfl hnt
      · rw [if_neg hcond, if_neg hcond]
        rw [refineAssemble]
        simp [hg]
  | succ n ih =>
      intro s e hnt
      rw [refineLoop_succ] at hnt
      rw [refineLoop_succ, refineEvalPoints_succ]
      by_cases hcond : p < e - s
      · rw [if_pos hcond] at hnt
        rw [if_pos hcond, if_pos hcond]
        cases h1 : spf (s + (e - s) / 3) with
        | none =>
            simp [refineAssemble, h1]
        | some d1 =>
            cases h2 : spf (e - (e - s) / 3) with
            | none =>
                simp [refineAssemble, h1, h2]
            | some d2 =>
                replace hnt : (if d1 < d2 then refineLoop spf p n s (e - (e - s) / 3)
                    else refineLoop spf p n (s + (e - s) / 3) e) ≠ LoopResult.timeout := by
                  rw [h1, h2] at hnt
                  exact hnt
                show refineAssemble g
                    (if d1 < d2 then refineLoop spf p n s (e - (e - s) / 3)
                     else refineLoop spf p n (s + (e - s) / 3) e) = none ↔
                  ∃ t ∈ (s + (e - s) / 3) :: (e - (e - s) / 3) ::
                      (if d1 < d2 then refineEvalPoints spf p n s (e - (e - s) / 3)
                       else refineEvalPoints spf p n (s + (e - s) / 3) e),
                    spf t = none
                by_cases hlt : d1 < d2
                · rw [if_pos hlt] at hnt
                  rw [if_pos hlt, if_pos hlt]
                  rw [ih s (e - (e - s) / 3) hnt]
                  simp [h1, h2]
                · rw [if_neg hlt] at hnt
                  rw [if_neg hlt, if_neg hlt]
                  rw [ih (s + (e - s) / 3) e hnt]
                  simp [h1, h2]
      · rw [if_neg hcond, if_neg hcond]
        rw [refineAssemble]
        simp [hg]

/-- Claim C5: for nonempty TLE catalogs and a positive precision,
`refine_minimum` returns `None` exactly when the propagator fails at one
of the instants it evaluates (an interior third point during the
iteration, or the final midpoint); otherwise it returns an event.  The
embedded function is total, so no other outcome (an uncaught exception in
particular) is possible, and a single failure aborts the refinement with
no retry. -/
theorem c5_refine_none_iff_propagation_failure (O : RealOracle)
    (tles_a tles_b : List TLERecord) (s e : ℚ) (precision_ms : ℕ)
    (hA : tles_a ≠ []) (hB : tles_b ≠ []) (hp : 1 ≤ precision_ms) :
    (refine_minimum O tles_a tles_b s e precision_ms = none ↔
      ∃ t ∈ refineEvalPoints (sepAt O tles_a tles_b) ((precision_ms : ℚ) / 1000)
          (fuelFor (e - s) ((precision_ms : ℚ) / 1000)) s e,
        sepAt O tles_a tles_b t = none) := by
  have hppos : (0 : ℚ) < (precision_ms : ℚ) / 1000 := by
    have hc : (1 : ℚ) ≤ (precision_ms : ℚ) := by exact_mod_cast hp
    linarith
  have hnt := refineLoop_no_timeout (sepAt O tles_a tles_b) ((precision_ms : ℚ) / 1000)
    (fuelFor (e - s) ((precision_ms : ℚ) / 1000)) s e
    (fuelFor_spec (e - s) ((precision_ms : ℚ) / 1000) hppos)
  rw [refine_minimum]
  exact refineAssemble_none_iff (sepAt O tles_a tles_b) (finalEval O tles_a tles_b)
    ((precision_ms : ℚ) / 1000) (finalEval_none_iff O tles_a tles_b)
    (fuelFor (e - s) ((precision_ms : ℚ) / 1000)) s e hnt

/-- Witness for C5 at the demo inputs: the refinement over `[0, 1/5]` with
the default precision. -/
theorem c5_refine_none_iff_propagation_failure_witness :
    (refine_minimum demoOracle [demoTleA] [demoTleB] 0 (1/5) 100 = none ↔
      ∃ t ∈ refineEvalPoints (sepAt demoOracle [demoTleA] [demoTleB]) (((100 : ℕ) : ℚ) / 1000)
          (fuelFor ((1:ℚ)/5 - 0) (((100 : ℕ) : ℚ) / 1000)) 0 (1/5),
        sepAt demoOracle [demoTleA] [demoTleB] t = none) :=
  c5_refine_none_iff_propagation_failure demoOracle [demoTleA] [demoTleB] 0 (1/5) 100
    (by simp) (by simp) (by norm_num)

/-! ### Claim C2 -/

/-- Left fold of Python `min` with a strict-improvement update: the result
is the first element of `b :: l` attaining the minimal key. -/
theorem pickFold_first_min (target_time : ℚ) :
    ∀ (l : List TLERecord) (b : TLERecord),
      ∃ i : ℕ,
        (b :: l)[i]? = some (l.foldl
          (fun best c =>
            if |c.epoch - target_time| < |best.epoch - target_time| then c else best) b) ∧
        (∀ s ∈ b :: l,
          |(l.foldl (fun best c =>
              if |c.epoch - target_time| < |best.epoch - target_time| then c else best)
            b).epoch - target_time| ≤ |s.epoch - target_time|) ∧
        (∀ j s, j < i → (b :: l)[j]? = some s →
          |(l.foldl (fun best c =>
              if |c.epoch - target_time| < |best.epoch - target_time| then c else best)
            b).epoch - target_time| < |s.epoch - target_time|) := by
  intro l
  induction l with
  | nil =>
      intro b
      refine ⟨0, by simp, ?_, ?_⟩
      · intro s hs
        rw [List.mem_singleton] at hs
        subst hs
        exact le_refl _
      · intro j s hj
        omega
  | cons hd tl ih =>
      intro b
      by_cases hc : |hd.epoch - target_time| < |b.epoch - target_time|
      · obtain ⟨i, hidx, hmin, hfirst⟩ := ih hd
        have hfold : (hd :: tl).foldl
            (fun best c =>
              if |c.epoch - target_time| < |best.epoch - target_time| then c else best) b =
            tl.foldl
              (fun best c =>
                if |c.epoch - target_time| < |best.epoch - target_time| then c else best) hd := by
          rw [List.foldl_cons, if_pos hc]
        refine ⟨i + 1, ?_, ?_, ?_⟩
        · rw [hfold]
          simpa using hidx
        · intro s hs
          rw [hfold]
          rcases List.mem_cons.mp hs with rfl | hs2
          · calc _ ≤ |hd.epoch - target_time| := hmin hd (List.mem_cons_self hd tl)
              _ ≤ |s.epoch - target_time| := hc.le
          · exact hmin s hs2
        · intro j s hj hjs
          rw [hfold]
          cases j with
          | zero =>
              rw [List.getElem?_cons_zero, Option.some_inj] at hjs
              rw [← hjs]
              calc _ ≤ |hd.epoch - target_time| := hmin hd (List.mem_cons_self hd tl)
                _ < |b.epoch - target_time| := hc
          | succ j2 =>
              rw [List.getElem?_cons_succ] at hjs
              exact hfirst j2 s (by omega) hjs
      · obtain ⟨i, hidx, hmin, hfirst⟩ := ih b
        have hfold : (hd :: tl).foldl
            (fun best c =>
              if |c.epoch - target_time| < |best.epoch - target_time| then c else best) b =
            tl.foldl
              (fun best c =>
                if |c.epoch - target_time| < |best.epoch - target_time| then c else best) b := by
          rw [List.foldl_cons, if_neg hc]
        have hble : |b.epoch - target_time| ≤ |hd.epoch - target_time| := not_lt.mp hc
        have hrle : |(tl.foldl (fun best c =>
            if |c.epoch - target_time| < |best.epoch - target_time| then c else best)
            b).epoch - target_time| ≤ |b.epoch - target_time| :=
          hmin b (List.mem_cons_self b tl)
        cases i with
        | zero =>
            rw [List.getElem?_cons_zero, Option.some_inj] at hidx
            refine ⟨0, ?_, ?_, ?_⟩
            · rw [hfold, List.getElem?_cons_zero]
              exact congrArg some hidx
            · intro s hs
              rw [hfold]
              rcases List.mem_cons.mp hs with rfl | hs2
              · exact hmin s (List.mem_cons_self _ _)
              · rcases List.mem_cons.mp hs2 with rfl | hs3
                · exact le_trans hrle hble
                · exact hmin s (List.mem_cons_of_mem _ hs3)
            · intro j s hj
              omega
        | succ i2 =>
            rw [List.getElem?_cons_succ] at hidx
            refine ⟨i2 + 2, ?_, ?_, ?_⟩
            · rw [hfold]
              rw [show i2 + 2 = (i2 + 1) + 1 from rfl, List.getElem?_cons_succ,
                List.getElem?_cons_succ]
              exact hidx
            · intro s hs
              rw [hfold]
              rcases List.mem_cons.mp hs with rfl | hs2
              · exact hmin s (List.mem_cons_self _ _)
              · rcases List.mem_cons.mp hs2 with rfl | hs3
                · exact le_trans hrle hble
                · exact hmin s (List.mem_cons_of_mem _ hs3)
            · intro j s hj hjs
              rw [hfold]
              have hrb : |(tl.foldl (fun best c =>
                  if |c.epoch - target_time| < |best.epoch - target_time| then c else best)
                  b).epoch - target_time| < |b.epoch - target_time| :=
                hfirst 0 b (by omega) (by rw [List.getElem?_cons_zero])
              cases j with
              | zero =>
                  rw [List.getElem?_cons_zero, Option.some_inj] at hjs
                  rw [← hjs]
                  exact hrb
              | succ j2 =>
                  rw [List.getElem?_cons_succ] at hjs
                  cases j2 with
                  | zero =>
                      rw [List.getElem?_cons_zero, Option.some_inj] at hjs
                      rw [← hjs]
                      exact lt_of_lt_of_le hrb hble
                  | succ j3 =>
                      rw [List.getElem?_cons_succ] at hjs
                      exact hfirst (j3 + 1) s (by omega) (by
                        rw [List.getElem?_cons_succ]
                        exact hjs)

/-- Claim C2: on a nonempty catalog `pick_closest_tle` returns a member of
the list whose absolute epoch-to-instant difference is at most that of
every member, and it is the first-occurring member attaining that
minimum (every earlier member has a strictly larger difference). -/
theorem c2_pick_closest_tle_nearest_stable (tles : List TLERecord) (target_time : ℚ)
    (h : tles ≠ []) :
    ∃ r i, pick_closest_tle tles target_time = some r ∧ tles[i]? = some r ∧
      (∀ s ∈ tles, |r.epoch - target_time| ≤ |s.epoch - target_time|) ∧
      (∀ (j : ℕ) (s : TLERecord), j < i → tles[j]? = some s →
        |r.epoch - target_time| < |s.epoch - target_time|) := by
  cases tles with
  | nil => exact absurd rfl h
  | cons b l =>
      obtain ⟨i, hidx, hmin, hfirst⟩ := pickFold_first_min target_time l b
      exact ⟨_, i, rfl, hidx, hmin, hfirst⟩

/-- Witness for C2 on a two-element catalog with tied epochs (both at
5 s): the returned record is the first, at index 0. -/
theorem c2_pick_closest_tle_nearest_stable_witness :
    ∃ r i, pick_closest_tle [demoTleA, demoTleB] 5 = some r ∧
      [demoTleA, demoTleB][i]? = some r ∧
      (∀ s ∈ [demoTleA, demoTleB], |r.epoch - 5| ≤ |s.epoch - 5|) ∧
      (∀ (j : ℕ) (s : TLERecord), j < i → [demoTleA, demoTleB][j]? = some s →
        |r.epoch - 5| < |s.epoch - 5|) :=
  c2_pick_closest_tle_nearest_stable [demoTleA, demoTleB] 5 (by simp)

/-! ### Claim C3 -/

/-- Soundness of the rising/falling scan: any declared index has a
predecessor at or above it and a successor strictly above it.  The
invariants carried through the scan: the head of `rest` sits at index `i`
of the full sample list, `pd` is the sample at `i - 1`, and while the
`decreasing` flag is set the sample at `i - 2` exists and is at least
`pd`. -/
theorem detectLoop_sound (ds : List ℚ) :
    ∀ (rest : List ℚ) (i : ℕ) (pd : ℚ) (dec : Bool),
      rest = ds.drop i → 1 ≤ i → ds[i - 1]? = some pd →
      (dec = true → 2 ≤ i ∧ ∃ q, ds[i - 2]? = some q ∧ pd ≤ q) →
      ∀ j ∈ detectLoop rest i pd dec,
        1 ≤ j ∧ j + 1 < ds.length ∧
        ds.getD j 0 ≤ ds.getD (j - 1) 0 ∧ ds.getD j 0 ≤ ds.getD (j + 1) 0 := by
  intro rest
  induction rest with
  | nil =>
      intro i pd dec hrest hi hprev hdec j hj
      rw [detectLoop] at hj
      exact absurd hj (List.not_mem_nil j)
  | cons d rest2 ih =>
      intro i pd dec hrest hi hprev hdec j hj
      have hdi : ds[i]? = some d := by
        have h0 : (ds.drop i)[0]? = ds[i]? := by
          simp [List.getElem?_drop]
        rw [← hrest] at h0
        simpa using h0.symm
      have hlen : i < ds.length := List.getElem?_eq_some_iff.mp hdi |>.1
      have hrest2 : rest2 = ds.drop (i + 1) := by
        have hdrop : ds.drop (i + 1) = (ds.drop i).drop 1 := by
          rw [List.drop_drop]
        rw [hdrop, ← hrest]
        simp
      rw [detectLoop] at hj
      by_cases hlt : d < pd
      · rw [if_pos hlt] at hj
        refine ih (i + 1) d true hrest2 (by omega) ?_ ?_ j hj
        · simpa using hdi
        · intro _
          refine ⟨by omega, pd, ?_, hlt.le⟩
          simpa using hprev
      · rw [if_neg hlt] at hj
        by_cases hemit : dec = true ∧ pd < d
        · rw [if_pos hemit] at hj
          rcases List.mem_cons.mp hj with rfl | hj2
          · obtain ⟨hi2, q, hq, hpq⟩ := hdec hemit.1
            have hgd_j : ds.getD (i - 1) 0 = pd := by
              rw [List.getD_eq_getElem?_getD, hprev]
              rfl
            have hgd_prev : ds.getD (i - 1 - 1) 0 = q := by
              rw [show i - 1 - 1 = i - 2 by omega, List.getD_eq_getElem?_getD, hq]
              rfl
            have hgd_next : ds.getD (i - 1 + 1) 0 = d := by
              rw [show i - 1 + 1 = i by omega, List.getD_eq_getElem?_getD, hdi]
              rfl
            refine ⟨by omega, by omega, ?_, ?_⟩
            · rw [hgd_j, hgd_prev]
              exact hpq
            · rw [hgd_j, hgd_next]
              exact hemit.2.le
          · refine ih (i + 1) d false hrest2 (by omega) ?_ ?_ j hj2
            · simpa using hdi
            · intro hcontra
              exact absurd hcontra (by simp)
        · rw [if_neg hemit] at hj
          refine ih (i + 1) d dec hrest2 (by omega) ?_ ?_ j hj
          · simpa using hdi
          · intro hdec2
            refine ⟨by omega, pd, ?_, ?_⟩
            · simpa using hprev
            · rcases not_and_or.mp hemit with hc | hc
              · exact absurd hdec2 hc
              · exact not_lt.mp hc

/-- Claim C3: every index the Local-Minimum Detector declares — either by
the rising/falling flag scan of `find_conjunctions` or by the strict
neighbour comparison of `find_local_minima` — is an interior index whose
distance is at most the distances of the samples immediately before and
after it. -/
theorem c3_detected_minimum_below_neighbors (ds : List ℚ) (j : ℕ)
    (hj : j ∈ detectMinima ds ∨ j ∈ localMinIndices ds) :
    1 ≤ j ∧ j + 1 < ds.length ∧
    ds.getD j 0 ≤ ds.getD (j - 1) 0 ∧ ds.getD j 0 ≤ ds.getD (j + 1) 0 := by
  rcases hj with hj | hj
  · cases hds : ds with
    | nil =>
        rw [hds] at hj
        rw [detectMinima] at hj
        exact absurd hj (List.not_mem_nil j)
    | cons d rest =>
        rw [hds] at hj
        rw [detectMinima] at hj
        rw [← hds]
        refine detectLoop_sound ds rest 1 d false ?_ (le_refl 1) ?_ ?_ j hj
        · rw [hds]; simp
        · rw [hds]; simp
        · intro hcontra
          exact absurd hcontra (by simp)
  · rw [localMinIndices] at hj
    obtain ⟨hmem, hcond⟩ := List.mem_filter.mp hj
    rw [List.mem_range'_1] at hmem
    rw [Bool.and_eq_true, decide_eq_true_eq, decide_eq_true_eq] at hcond
    exact ⟨hmem.1, by omega, hcond.1.le, hcond.2.le⟩

/-- Witness for C3 on the sample list `[5, 3, 4]`: index 1 is declared by
the flag scan and satisfies the neighbour bounds. -/
theorem c3_detected_minimum_below_neighbors_witness :
    1 ≤ 1 ∧ 1 + 1 < [(5 : ℚ), 3, 4].length ∧
    [(5 : ℚ), 3, 4].getD 1 0 ≤ [(5 : ℚ), 3, 4].getD (1 - 1) 0 ∧
    [(5 : ℚ), 3, 4].getD 1 0 ≤ [(5 : ℚ), 3, 4].getD (1 + 1) 0 :=
  c3_detected_minimum_below_neighbors [5, 3, 4] 1
    (Or.inl (by norm_num [detectMinima, detectLoop]))

/-! ### Claim C7 -/

/-- Invariant-carrying specification of the `group_into_passes` loop: with
a nonempty current pass whose last sample is `prev` and whose internal
gaps are within 1800 s, the loop yields a partition of `cur ++ rest` into
nonempty passes with internal gaps at most 1800 s, boundary gaps above
1800 s, and a first pass starting where `cur` starts. -/
theorem gipLoop_spec :
    ∀ (rest cur : List Sample) (prev : Sample),
      cur ≠ [] → cur.getLast? = some prev →
      cur.Chain' (fun a b => b.time - a.time ≤ 1800) →
      (gipLoop cur prev rest).flatten = cur ++ rest ∧
      (∀ p ∈ gipLoop cur prev rest, p ≠ []) ∧
      (∀ p ∈ gipLoop cur prev rest, p.Chain' (fun a b => b.time - a.time ≤ 1800)) ∧
      (gipLoop cur prev rest).Chain'
        (fun p q => ∀ a ∈ p.getLast?, ∀ b ∈ q.head?, 1800 < b.time - a.time) ∧
      (∀ p0 ∈ (gipLoop cur prev rest).head?, p0.head? = cur.head?) := by
  intro rest
  induction rest with
  | nil =>
      intro cur prev hne hlast hchain
      rw [gipLoop]
      refine ⟨by simp, ?_, ?_, ?_, ?_⟩
      · intro p hp
        rw [List.mem_singleton] at hp
        subst hp
        exact hne
      · intro p hp
        rw [List.mem_singleton] at hp
        subst hp
        exact hchain
      · exact List.chain'_singleton cur
      · intro p0 hp0
        rw [List.head?_cons, Option.mem_some_iff] at hp0
        subst hp0
        rfl
  | cons s rest2 ih =>
      intro cur prev hne hlast hchain
      rw [gipLoop]
      by_cases hgap : 1800 < s.time - prev.time
      · rw [if_pos hgap]
        obtain ⟨hjoin, hpne, hpchain, hbchain, hhead⟩ := ih [s] s
          (by simp) (by simp) (List.chain'_singleton s)
        refine ⟨?_, ?_, ?_, ?_, ?_⟩
        · rw [List.flatten_cons, hjoin]
          simp
        · intro p hp
          rcases List.mem_cons.mp hp with rfl | hp2
          · exact hne
          · exact hpne p hp2
        · intro p hp
          rcases List.mem_cons.mp hp with rfl | hp2
          · exact hchain
          · exact hpchain p hp2
        · rw [List.chain'_cons']
          refine ⟨?_, hbchain⟩
          intro q hq a ha b hb
          have hq0 : q.head? = some s := by
            have := hhead q hq
            simpa using this
          rw [hlast, Option.mem_some_iff] at ha
          rw [hq0, Option.mem_some_iff] at hb
          subst ha
          subst hb
          exact hgap
        · intro p0 hp0
          rw [List.head?_cons, Option.mem_some_iff] at hp0
          subst hp0
          rfl
      · rw [if_neg hgap]
        have hlast2 : (cur ++ [s]).getLast? = some s := by
          rw [List.getLast?_concat]
        have hchain2 : (cur ++ [s]).Chain' (fun a b => b.time - a.time ≤ 1800) := by
          rw [List.chain'_append]
          refine ⟨hchain, List.chain'_singleton s, ?_⟩
          intro x hx y hy
          rw [hlast, Option.mem_some_iff] at hx
          rw [List.head?_cons, Option.mem_some_iff] at hy
          subst hx
          subst hy
          exact not_lt.mp hgap
        obtain ⟨hjoin, hpne, hpchain, hbchain, hhead⟩ := ih (cur ++ [s]) s
          (by simp) hlast2 hchain2
        refine ⟨?_, hpne, hpchain, hbchain, ?_⟩
        · rw [hjoin]
          simp
        · intro p0 hp0
          have h1 := hhead p0 hp0
          rw [h1]
          cases cur with
          | nil => exact absurd rfl hne
          | cons c cur2 => simp

/-- Claim C7: `group_into_passes` partitions its input into nonempty
consecutive runs whose concatenation is the input, with every
within-pass gap at most 1800 s and every between-pass boundary gap
strictly above 1800 s. -/
theorem c7_group_into_passes_partition (samples : List Sample)
    (hsorted : samples.Chain' (fun a b => a.time ≤ b.time)) :
    (group_into_passes samples).flatten = samples ∧
    (∀ p ∈ group_into_passes samples, p ≠ []) ∧
    (∀ p ∈ group_into_passes samples, p.Chain' (fun a b => b.time - a.time ≤ 1800)) ∧
    (group_into_passes samples).Chain'
      (fun p q => ∀ a ∈ p.getLast?, ∀ b ∈ q.head?, 1800 < b.time - a.time) := by
  cases samples with
  | nil =>
      rw [group_into_passes]
      refine ⟨rfl, ?_, ?_, List.chain'_nil⟩
      · intro p hp
        exact absurd hp (List.not_mem_nil p)
      · intro p hp
        exact absurd hp (List.not_mem_nil p)
  | cons s rest =>
      rw [group_into_passes]
      obtain ⟨hjoin, hpne, hpchain, hbchain, _⟩ := gipLoop_spec rest [s] s
        (by simp) (by simp) (List.chain'_singleton s)
      exact ⟨hjoin, hpne, hpchain, hbchain⟩

/-- Witness for C7 on three samples at 0 s, 1000 s, 5000 s (grouped as
two passes split at the 4000 s gap). -/
theorem c7_group_into_passes_partition_witness :
    (group_into_passes [⟨0, 1⟩, ⟨1000, 2⟩, ⟨5000, 3⟩]).flatten
        = [⟨0, 1⟩, ⟨1000, 2⟩, ⟨5000, 3⟩] ∧
    (∀ p ∈ group_into_passes [⟨0, 1⟩, ⟨1000, 2⟩, ⟨5000, 3⟩], p ≠ []) ∧
    (∀ p ∈ group_into_passes [⟨0, 1⟩, ⟨1000, 2⟩, ⟨5000, 3⟩],
      p.Chain' (fun a b => b.time - a.time ≤ 1800)) ∧
    (group_into_passes [⟨0, 1⟩, ⟨1000, 2⟩, ⟨5000, 3⟩]).Chain'
      (fun p q => ∀ a ∈ p.getLast?, ∀ b ∈ q.head?, 1800 < b.time - a.time) :=
  c7_group_into_passes_partition [⟨0, 1⟩, ⟨1000, 2⟩, ⟨5000, 3⟩]
    (by norm_num [List.chain'_cons, List.chain'_singleton])

/-! ### Claim C8 -/

/-- A `for _ in range(n)` fold that ignores the counter is the `n`-th
iterate. -/
theorem foldl_const_iterate (f : ℚ → ℚ) (a : ℚ) (n : ℕ) :
    (List.range n).foldl (fun l _ => f l) a = f^[n] a := by
  induction n with
  | zero => simp
  | succ n ih =>
      rw [List.range_succ, List.foldl_append, ih, List.foldl_cons, List.foldl_nil,
        Function.iterate_succ_apply']

/-- The latitude `eci_to_geodetic` converges to: exactly the fifth iterate
of the fixed-point step from the spherical approximation. -/
def geoLatFinal (O : RealOracle) (pos : Vec3) (dt : ℚ) : ℚ :=
  (geoLatStep O pos.z (geoP O pos dt))^[5] (geoLat0 O pos.z (geoP O pos dt))

/-- The radius of curvature `n` at the converged latitude (line 139). -/
def geoN (O : RealOracle) (pos : Vec3) (dt : ℚ) : ℚ :=
  earthRadius / O.sqrt (1 - geoE2 * O.sin (geoLatFinal O pos dt) ^ 2)

/-- Claim C8: `eci_to_geodetic` always returns a triple — there is no
error path — the latitude fixed-point iteration runs exactly 5 times, and
the altitude division by `cos(latitude)` is guarded: when
`|cos(latitude)|` is within `1e-10` of zero the polar fallback
`|z| - n * (1 - e2)` is taken instead of the division. -/
theorem c8_geodetic_total_guarded (O : RealOracle) (pos : Vec3) (dt : ℚ) :
    ∃ lat lon alt,
      eci_to_geodetic O pos dt = (lat, lon, alt) ∧
      lat = O.degrees (geoLatFinal O pos dt) ∧
      ((|O.cos (geoLatFinal O pos dt)| ≤ 1 / 10 ^ 10 ∧
          alt = |pos.z| - geoN O pos dt * (1 - geoE2)) ∨
        (1 / 10 ^ 10 < |O.cos (geoLatFinal O pos dt)| ∧
          alt = geoP O pos dt / O.cos (geoLatFinal O pos dt) - geoN O pos dt)) := by
  have hfold : (List.range 5).foldl
      (fun l _ => geoLatStep O pos.z (geoP O pos dt) l) (geoLat0 O pos.z (geoP O pos dt))
      = geoLatFinal O pos dt := by
    rw [geoLatFinal]
    exact foldl_const_iterate _ _ 5
  have hgeoP : O.sqrt (ecefX O pos dt ^ 2 + ecefY O pos dt ^ 2) = geoP O pos dt := rfl
  rw [eci_to_geodetic]
  simp only [hgeoP]
  rw [hfold]
  by_cases hcos : 1 / 10 ^ 10 < |O.cos (geoLatFinal O pos dt)|
  · rw [if_pos hcos]
    exact ⟨_, _, _, rfl, rfl, Or.inr ⟨hcos, rfl⟩⟩
  · rw [if_neg hcos]
    exact ⟨_, _, _, rfl, rfl, Or.inl ⟨not_lt.mp hcos, rfl⟩⟩

/-! ### Claim C9 -/

/-- Every event the sampling loop accumulates beyond an already-compliant
accumulator has distance strictly below the threshold: the
`refined['distance'] < threshold_km` check guards every append. -/
theorem fcLoop_threshold (O : RealOracle) (tles_a tles_b : List TLERecord)
    (end_time step threshold_km : ℚ) :
    ∀ (fuel : ℕ) (current : ℚ) (prev : Option (ℚ × ℚ)) (decreasing : Bool) (acc : List Event),
      (∀ e ∈ acc, e.distance < threshold_km) →
      ∀ ev ∈ fcLoop O tles_a tles_b end_time step threshold_km fuel current prev decreasing acc,
        ev.distance < threshold_km := by
  intro fuel
  induction fuel with
  | zero =>
      intro current prev dec acc hacc ev hev
      rw [fcLoop] at hev
      exact hacc ev hev
  | succ n ih =>
      intro current prev dec acc hacc ev hev
      rw [fcLoop_succ] at hev
      split at hev
      · split at hev
        · exact ih _ _ _ _ hacc ev hev
        · split at hev
          · exact ih _ _ _ _ hacc ev hev
          · split at hev
            · exact ih _ _ _ _ hacc ev hev
            · split at hev
              · refine ih _ _ _ _ ?_ ev hev
                intro e he
                split at he
                · split at he
                  · rcases List.mem_append.mp he with h | h
                    · exact hacc e h
                    · rw [List.mem_singleton] at h
                      subst h
                      assumption
                  · exact hacc e he
                · exact hacc e he
              · exact ih _ _ _ _ hacc ev hev
      · exact hacc ev hev

/-- Claim C9: the list `find_conjunctions` returns is sorted in ascending
order of refined distance, and every event in it has refined distance
strictly below `threshold_km` — a successfully refined minimum at or above
the threshold never appears in the result. -/
theorem c9_conjunctions_sorted_below_threshold (O : RealOracle)
    (tles_a tles_b : List TLERecord) (start_time end_time step_seconds threshold_km : ℚ)
    (hA : tles_a ≠ []) (hB : tles_b ≠ []) :
    (find_conjunctions O tles_a tles_b start_time end_time step_seconds threshold_km).Sorted
        (fun a b => a.distance ≤ b.distance) ∧
    ∀ ev ∈ find_conjunctions O tles_a tles_b start_time end_time step_seconds threshold_km,
      ev.distance < threshold_km := by
  constructor
  · rw [find_conjunctions]
    have hpair := @List.sorted_mergeSort Event (fun a b => decide (a.distance ≤ b.distance))
      (by
        intro a b c hab hbc
        simp only [decide_eq_true_eq] at hab hbc ⊢
        exact le_trans hab hbc)
      (by
        intro a b
        simp only [Bool.or_eq_true, decide_eq_true_eq]
        exact le_total _ _)
      (fcLoop O tles_a tles_b end_time step_seconds threshold_km
        (stepsFuel (end_time - start_time) step_seconds) start_time none false [])
    exact List.Pairwise.imp (fun h => of_decide_eq_true h) hpair
  · intro ev hev
    rw [find_conjunctions, List.mem_mergeSort] at hev
    exact fcLoop_threshold O tles_a tles_b end_time step_seconds threshold_km _ _ _ _ _
      (by
        intro e he
        exact absurd he (List.not_mem_nil e)) ev hev

/-- Witness for C9 at the demo inputs (the run whose single event has
distance 999 below the 1000 km threshold). -/
theorem c9_conjunctions_sorted_below_threshold_witness :
    (find_conjunctions demoOracle [demoTleA] [demoTleB] 0 (1/5) (1/10) 1000).Sorted
        (fun a b => a.distance ≤ b.distance) ∧
    ∀ ev ∈ find_conjunctions demoOracle [demoTleA] [demoTleB] 0 (1/5) (1/10) 1000,
      ev.distance < 1000 :=
  c9_conjunctions_sorted_below_threshold demoOracle [demoTleA] [demoTleB] 0 (1/5) (1/10) 1000
    (by simp) (by simp)

/-! ### Claim C10 -/

/-- Claim C10: whenever `TLERecord.from_lines` succeeds, the two-digit
year was read from the first two characters of the stripped columns 19-32
of line 1 (Python slice `line1[18:32]`), pivoted to `2000 + yy` when
`yy < 57` and `1900 + yy` otherwise; the fractional day of year follows in
the same field; the epoch is January 1 (UTC) of the pivoted year plus
`day_of_year - 1` days; and the mean motion was parsed from columns 53-63
of line 2 (slice `line2[52:63]`). -/
theorem c10_from_lines_epoch_mean_motion
    (twoline2rv : String → String → ℚ → Option (Vec3 × Vec3))
    (line1 line2 : String) (rec : TLERecord)
    (h : TLERecord.from_lines twoline2rv line1 line2 = some rec) :
    ∃ yy doy mm,
      parseNat ((stripChars ((line1.toList.drop 18).take 14)).take 2) = some yy ∧
      parseDecimal ((stripChars ((line1.toList.drop 18).take 14)).drop 2) = some doy ∧
      parseDecimal ((line2.toList.drop 52).take 11) = some mm ∧
      rec.epoch = jan1Sec (if yy < 57 then 2000 + yy else 1900 + yy) + (doy - 1) * 86400 ∧
      rec.mean_motion = mm ∧
      rec.prop = twoline2rv line1 line2 := by
  simp only [TLERecord.from_lines] at h
  split at h
  · exact absurd h (by simp)
  · rename_i yy hyy
    split at h
    · exact absurd h (by simp)
    · rename_i doy hdoy
      split at h
      · exact absurd h (by simp)
      · rename_i mm hmm
        rw [Option.some_inj] at h
        subst h
        exact ⟨yy, doy, mm, hyy, hdoy, hmm, rfl, rfl, rfl⟩

/-- The external `twoline2rv` stand-in used by the parsing witness. -/
def rvDummy : String → String → ℚ → Option (Vec3 × Vec3) := fun _ _ _ => none

/-- A well-formed TLE line 1 (epoch field `25355.50000000` in columns
19-32). -/
def tleL1 : String := "1 25544U 98067A   25355.50000000  .00016717  00000-0  10270-3 0  9991"

/-- A well-formed TLE line 2 (mean-motion field `15.50103472` in columns
53-63). -/
def tleL2 : String := "2 25544  51.6400 208.9163 0006317  69.9862  25.2906 15.50103472 56353"

/-- The record parsed from `tleL1`/`tleL2`: epoch 2025-12-21 12:00 UTC
(day-of-year 355.5 of 2025) as a timestamp, mean motion 15.50103472. -/
def demoRec : TLERecord :=
  { epoch := 63901915200, prop := rvDummy tleL1 tleL2, mean_motion := 96881467 / 6250000 }

/-- Evaluation of the parser on the concrete TLE. -/
theorem demoFromLines_eval : TLERecord.from_lines rvDummy tleL1 tleL2 = some demoRec := by
  have h1 : parseNat ((stripChars ((tleL1.toList.drop 18).take 14)).take 2) = some 25 := by
    decide
  have h2 : decParts ((stripChars ((tleL1.toList.drop 18).take 14)).drop 2)
      = some (355, 50000000, 8) := by decide
  have h3 : decParts ((tleL2.toList.drop 52).take 11) = some (15, 50103472, 8) := by decide
  simp only [TLERecord.from_lines, parseDecimal, h1, h2, h3, Option.map_some]
  norm_num [demoRec, jan1Sec, daysBeforeYear]

/-- Witness for C10 on the concrete TLE pair. -/
theorem c10_from_lines_epoch_mean_motion_witness :
    ∃ yy doy mm,
      parseNat ((stripChars ((tleL1.toList.drop 18).take 14)).take 2) = some yy ∧
      parseDecimal ((stripChars ((tleL1.toList.drop 18).take 14)).drop 2) = some doy ∧
      parseDecimal ((tleL2.toList.drop 52).take 11) = some mm ∧
      demoRec.epoch = jan1Sec (if yy < 57 then 2000 + yy else 1900 + yy) + (doy - 1) * 86400 ∧
      demoRec.mean_motion = mm ∧
      demoRec.prop = rvDummy tleL1 tleL2 :=
  c10_from_lines_epoch_mean_motion rvDummy tleL1 tleL2 demoRec demoFromLines_eval

/-! ### Claim C4 -/

/-- Fold congruence on the traversed elements. -/
theorem foldl_congr_mem {α β : Type} (f g : β → α → β) (l : List α)
    (h : ∀ (st : β) (a : α), a ∈ l → f st a = g st a) :
    ∀ st : β, l.foldl f st = l.foldl g st := by
  induction l with
  | nil => intro st; rfl
  | cons a l2 ih =>
      intro st
      rw [List.foldl_cons, List.foldl_cons, h st a (List.mem_cons_self _ _)]
      exact ih (fun st2 b hb => h st2 b (List.mem_cons_of_mem a hb)) (g st a)

/-- A fold whose step fixes the state on every traversed element is the
identity. -/
theorem foldl_fix_mem {α β : Type} (g : β → α → β) (l : List α)
    (h : ∀ (st : β) (a : α), a ∈ l → g st a = st) :
    ∀ st : β, l.foldl g st = st := by
  induction l with
  | nil => intro st; rfl
  | cons a l2 ih =>
      intro st
      rw [List.foldl_cons, h st a (List.mem_cons_self _ _)]
      exact ih (fun st2 b hb => h st2 b (List.mem_cons_of_mem a hb)) st

/-- Outside the window-complete index range, the specification's step is a
no-op. -/
theorem envSpecStep_skip (ts ds : List ℚ) (hw : ℕ) (st : List ℚ × List ℚ) (i : ℕ)
    (h : ¬(hw ≤ i ∧ i + hw < ds.length)) :
    envSpecStep ts ds hw st i = st := by
  rw [envSpecStep, if_neg]
  intro hC
  exact h ⟨hC.1, hC.2.1⟩

/-- On any index with a full window on both sides, the code's step and the
specification's step agree. -/
theorem femStep_eq_envSpecStep (ts ds : List ℚ) (hw i : ℕ)
    (hlo : hw ≤ i) (hhi : i + hw < ds.length) (st : List ℚ × List ℚ) :
    femStep ts ds hw st i = envSpecStep ts ds hw st i := by
  have hwin : i + hw + 1 - (i - hw) = 2 * hw + 1 := by omega
  have hcnt : min ds.length (i + hw + 1) - max 0 (i - hw) = 2 * hw + 1 := by omega
  have hcheck : femLocalCheck ds hw i = true ↔
      (∀ j < i + hw + 1, i - hw ≤ j → j ≠ i → ¬(ds.getD j 0 < ds.getD i 0)) := by
    rw [femLocalCheck, hcnt, Nat.zero_max, List.all_eq_true]
    constructor
    · intro hall j hj1 hj2 hj3
      have hmem : j ∈ List.range' (i - hw) (2 * hw + 1) := by
        rw [List.mem_range'_1]
        omega
      have hj := hall j hmem
      rw [Bool.or_eq_true, beq_iff_eq, Bool.not_eq_eq_eq_not, Bool.not_true,
        decide_eq_false_iff_not] at hj
      rcases hj with hj | hj
      · exact absurd hj hj3
      · exact hj
    · intro hno j hmem
      rw [List.mem_range'_1] at hmem
      rw [Bool.or_eq_true, beq_iff_eq, Bool.not_eq_eq_eq_not, Bool.not_true,
        decide_eq_false_iff_not]
      by_cases hji : j = i
      · exact Or.inl hji
      · exact Or.inr (hno j (by omega) (by omega) hji)
  rw [femStep, envSpecStep, hwin]
  by_cases hc1 : ds.getD i 0 = windowMin ((ds.drop (i - hw)).take (2 * hw + 1))
  · rw [if_pos hc1]
    by_cases hchk : femLocalCheck ds hw i = true
    · have hno := hcheck.mp hchk
      rw [if_pos hchk]
      cases hh : st.1.head? with
      | none =>
          have hC : hw ≤ i ∧ i + hw < ds.length
              ∧ ds.getD i 0 = windowMin ((ds.drop (i - hw)).take (2 * hw + 1))
              ∧ (∀ j < i + hw + 1, i - hw ≤ j → j ≠ i → ¬(ds.getD j 0 < ds.getD i 0))
              ∧ (∀ lastT ∈ (none : Option ℚ), 3600 < ts.getD i 0 - lastT) :=
            ⟨hlo, hhi, hc1, hno, by intro lastT hlt; exact absurd hlt (by simp)⟩
          rw [if_pos hC]
      | some lastT =>
          show (if 3600 < ts.getD i 0 - lastT then (ts.getD i 0 :: st.1, ds.getD i 0 :: st.2)
              else st) = _
          by_cases hgap : 3600 < ts.getD i 0 - lastT
          · have hC : hw ≤ i ∧ i + hw < ds.length
                ∧ ds.getD i 0 = windowMin ((ds.drop (i - hw)).take (2 * hw + 1))
                ∧ (∀ j < i + hw + 1, i - hw ≤ j → j ≠ i → ¬(ds.getD j 0 < ds.getD i 0))
                ∧ (∀ lastT2 ∈ some lastT, 3600 < ts.getD i 0 - lastT2) := by
              refine ⟨hlo, hhi, hc1, hno, ?_⟩
              intro lastT2 hlt
              rw [Option.mem_some_iff] at hlt
              subst hlt
              exact hgap
            rw [if_pos hgap, if_pos hC]
          · have hC : ¬(hw ≤ i ∧ i + hw < ds.length
                ∧ ds.getD i 0 = windowMin ((ds.drop (i - hw)).take (2 * hw + 1))
                ∧ (∀ j < i + hw + 1, i - hw ≤ j → j ≠ i → ¬(ds.getD j 0 < ds.getD i 0))
                ∧ (∀ lastT2 ∈ some lastT, 3600 < ts.getD i 0 - lastT2)) := by
              intro hCC
              exact hgap (hCC.2.2.2.2 lastT (by simp))
            rw [if_neg hgap, if_neg hC]
    · rw [if_neg hchk, if_neg]
      intro hC
      exact hchk (hcheck.mpr hC.2.2.2.1)
  · rw [if_neg hc1, if_neg]
    intro hC
    exact hc1 hC.2.2.1

/-- The specification's scan over all indices equals the code's scan over
the window-complete index range: indices without `hw` neighbours on both
sides are skipped by the specification, and on the rest the two steps
agree. -/
theorem envSpec_eq_code_fold (ts ds : List ℚ) (hw : ℕ) :
    (List.range ds.length).foldl (envSpecStep ts ds hw) ([], []) =
      (List.range' hw (ds.length - 2 * hw)).foldl (femStep ts ds hw) ([], []) := by
  have hmid : ∀ st : List ℚ × List ℚ,
      (List.range' hw (ds.length - 2 * hw)).foldl (envSpecStep ts ds hw) st =
        (List.range' hw (ds.length - 2 * hw)).foldl (femStep ts ds hw) st := by
    intro st
    refine foldl_congr_mem _ _ _ ?_ st
    intro st2 i hi
    rw [List.mem_range'_1] at hi
    exact (femStep_eq_envSpecStep ts ds hw i (by omega) (by omega) st2).symm
  by_cases hlen : ds.length ≤ 2 * hw
  · have h0 : ds.length - 2 * hw = 0 := by omega
    rw [h0, show List.range' hw 0 = ([] : List ℕ) from rfl, List.foldl_nil]
    refine foldl_fix_mem _ _ ?_ _
    intro st i hi
    rw [List.mem_range] at hi
    exact envSpecStep_skip ts ds hw st i (by omega)
  · push_neg at hlen
    have hm3 : hw + (ds.length - 2 * hw) + hw = ds.length := by omega
    have hdec : List.range ds.length =
        List.range' 0 hw ++ (List.range' hw (ds.length - 2 * hw) ++
          List.range' (hw + (ds.length - 2 * hw)) hw) := by
      calc List.range ds.length
          = List.range' 0 (hw + (ds.length - 2 * hw) + hw) := by
            rw [List.range_eq_range', hm3]
        _ = List.range' 0 hw ++ List.range' (0 + hw) (hw + (ds.length - 2 * hw)) :=
            (List.range'_append_1 0 hw _).symm
        _ = List.range' 0 hw ++ (List.range' hw (ds.length - 2 * hw) ++
              List.range' (hw + (ds.length - 2 * hw)) hw) := by
            rw [Nat.zero_add, ← List.range'_append_1 hw (ds.length - 2 * hw) hw]
    rw [hdec, List.foldl_append, List.foldl_append]
    rw [foldl_fix_mem (envSpecStep ts ds hw) (List.range' 0 hw) ?hskip1 ([], [])]
    case hskip1 =>
      intro st i hi
      rw [List.mem_range'_1] at hi
      exact envSpecStep_skip ts ds hw st i (by omega)
    rw [foldl_fix_mem (envSpecStep ts ds hw)
        (List.range' (hw + (ds.length - 2 * hw)) hw) ?hskip3]
    case hskip3 =>
      intro st i hi
      rw [List.mem_range'_1] at hi
      exact envSpecStep_skip ts ds hw st i (by omega)
    exact hmid _

/-- Claim C4: `find_envelope_minima` computes exactly the
specification-worded extraction — an index is accepted iff it has
`half_window` neighbours on both sides, carries the window minimum with no
strictly lower value in the window, and is more than one hour after the
previously accepted envelope minimum — and any input shorter than
`2 * half_window + 1` produces the empty triple. -/
theorem c4_find_envelope_minima_spec (ts ds : List ℚ) (window_size : ℕ)
    (hlen : ts.length = ds.length) :
    find_envelope_minima ts ds window_size =
      ((envSpec ts ds window_size).1, (envSpec ts ds window_size).2,
        (envSpec ts ds window_size).1.zipWith (fun a b => (b - a) / 3600)
          (envSpec ts ds window_size).1.tail) ∧
    (ds.length < 2 * max 2 (window_size / 2) + 1 →
      find_envelope_minima ts ds window_size = ([], [], [])) := by
  have hhw : 2 ≤ max 2 (window_size / 2) := le_max_left _ _
  constructor
  · rw [find_envelope_minima, envSpec]
    by_cases hts : ts.length < 3
    · rw [if_pos hts]
      have hfix : (List.range ds.length).foldl
          (envSpecStep ts ds (max 2 (window_size / 2))) ([], [])
          = (([], []) : List ℚ × List ℚ) := by
        refine foldl_fix_mem _ _ ?_ _
        intro st i hi
        rw [List.mem_range] at hi
        refine envSpecStep_skip ts ds _ st i ?_
        intro hC
        omega
      rw [hfix]
      simp
    · rw [if_neg hts]
      rw [envSpec_eq_code_fold ts ds (max 2 (window_size / 2))]
  · intro hshort
    rw [find_envelope_minima]
    by_cases hts : ts.length < 3
    · rw [if_pos hts]
    · rw [if_neg hts]
      have h0 : ds.length - 2 * max 2 (window_size / 2) = 0 := by omega
      simp [h0]

/-- Witness for C4 on a five-long minima sequence (exactly `2*hw + 1` for
the default window size, with a single accepted envelope minimum). -/
theorem c4_find_envelope_minima_spec_witness :
    (find_envelope_minima [0, 10, 20, 30, 40] [9, 8, 1, 8, 9] 5 =
      ((envSpec [0, 10, 20, 30, 40] [9, 8, 1, 8, 9] 5).1,
        (envSpec [0, 10, 20, 30, 40] [9, 8, 1, 8, 9] 5).2,
        (envSpec [0, 10, 20, 30, 40] [9, 8, 1, 8, 9] 5).1.zipWith
          (fun a b => (b - a) / 3600)
          (envSpec [0, 10, 20, 30, 40] [9, 8, 1, 8, 9] 5).1.tail)) ∧
    (([(9 : ℚ), 8, 1, 8, 9] : List ℚ).length < 2 * max 2 (5 / 2) + 1 →
      find_envelope_minima [0, 10, 20, 30, 40] [9, 8, 1, 8, 9] 5 = ([], [], [])) :=
  c4_find_envelope_minima_spec [0, 10, 20, 30, 40] [9, 8, 1, 8, 9] 5 rfl
